import Mathlib

/-!
Shallow embedding of the `glyph` font-manager console provider
(`src/page.ts`): directory listing, deletion, upload and on-demand
cache loading of font files, together with the Node `path`/`Buffer`
primitives the code relies on.  File-system and cache effects are made
explicit: the directory listing, `stat`, `writeFile`, `unlink` and the
external `FontsService` cache are passed in as explicit state/oracles.
-/

set_option autoImplicit false

namespace Glyph

/-! ### Node `path` primitives (posix semantics) -/

/-- Splits a character list at every `'/'` (like `String.split` on slash);
always returns a non-empty list of segments. -/
def splitSlash : List Char → List (List Char)
  | [] => [[]]
  | c :: cs =>
    match splitSlash cs with
    | [] => [[]]
    | g :: gs => if c = '/' then [] :: g :: gs else (c :: g) :: gs

/-- Last path segment of a string (the part after the final `'/'`). -/
def lastSeg (s : String) : String :=
  String.mk ((splitSlash s.data).getLastD [])

/-- ASCII lowercasing of one character, as `toLowerCase` acts on the
ASCII range (the only range the allow-list can match). -/
def lowerChar (c : Char) : Char :=
  if 65 ≤ c.toNat ∧ c.toNat ≤ 90 then Char.ofNat (c.toNat + 32) else c

/-- `String.prototype.toLowerCase` on the ASCII range. -/
def lowerStr (s : String) : String :=
  String.mk (s.data.map lowerChar)

/-- Whether `suf` is a (case-sensitive) suffix of `l`. -/
def isSuffixOfB (suf l : List Char) : Bool :=
  l.drop (l.length - suf.length) == suf

/-- Index of the last `'.'` in a character list, if any. -/
def lastDotIdx : List Char → Option Nat
  | [] => none
  | c :: cs =>
    match lastDotIdx cs with
    | some i => some (i + 1)
    | none => if c = '.' then some 0 else none

/-- Extension of one path segment: the characters from its last dot on,
except that a dot in first position (hidden files) and the special
names `.` / `..` yield nothing. -/
def extChars (seg : List Char) : List Char :=
  if seg == ['.'] || seg == ['.', '.'] then []
  else
    match lastDotIdx seg with
    | none => []
    | some i => if i == 0 then [] else seg.drop i

/-- Node `path.extname`: the extension of the last segment. -/
def extname (s : String) : String :=
  String.mk (extChars ((splitSlash s.data).getLastD []))

/-- Node `path.basename(f, e)`: the last segment of `f`, with the suffix
`e` removed when it matches case-sensitively (and is a proper suffix). -/
def basenameSuffix (f e : String) : String :=
  let seg := (splitSlash f.data).getLastD []
  if !(e.data.isEmpty) && isSuffixOfB e.data seg && !(seg == e.data) then
    String.mk (seg.take (seg.length - e.data.length))
  else String.mk seg

/-- Whether the string begins with a `'/'` (an absolute posix path). -/
def startsWithSlash (s : String) : Bool :=
  match s.data with
  | c :: _ => c == '/'
  | [] => false

/-- One step of path normalisation: empty and `.` segments are dropped,
`..` pops the last accumulated segment, anything else is appended. -/
def resolveStep (acc : List String) (s : String) : List String :=
  if s == "" || s == "." then acc
  else if s == ".." then acc.dropLast
  else acc ++ [s]

/-- Node `path.resolve(root, p)` with an absolute `root`, as a segment
list: an absolute `p` ignores `root`, otherwise `p`'s segments are
normalised on top of `root`. -/
def resolvePath (root : List String) (p : String) : List String :=
  ((splitSlash p.data).map (fun g => String.mk g)).foldl resolveStep
    (if startsWithSlash p then [] else root)

/-- The spec's notion of stem: the file name without its extension. -/
def stem (f : String) : String :=
  let seg := (splitSlash f.data).getLastD []
  String.mk (seg.take (seg.length - (extChars seg).length))

/-- Stem of the last segment of a resolved path. -/
def stemOfPath (p : List String) : String :=
  stem (p.getLastD "")

/-- A well-formed directory entry as produced by `readdir`: a plain
name, without slashes and distinct from `""`, `.` and `..`. -/
def plainEntry (f : String) : Bool :=
  f.data.all (fun c => !(c == '/')) && !(f == "") && !(f == ".") && !(f == "..")

/-! ### Base64 decoding (`Buffer.from(s, 'base64')`) -/

/-- Value of a base64 alphabet character; `none` for characters outside
the alphabet (Node ignores those, including padding). -/
def b64Val (c : Char) : Option Nat :=
  if 65 ≤ c.toNat ∧ c.toNat ≤ 90 then some (c.toNat - 65)
  else if 97 ≤ c.toNat ∧ c.toNat ≤ 122 then some (c.toNat - 97 + 26)
  else if 48 ≤ c.toNat ∧ c.toNat ≤ 57 then some (c.toNat - 48 + 52)
  else if c == '+' then some 62
  else if c == '/' then some 63
  else none

/-- Turns a list of 6-bit values into bytes, 4 values to 3 bytes, with
the usual truncated final group. -/
def decodeChunks : List Nat → List Nat
  | a :: b :: c :: d :: rest =>
    (a * 4 + b / 16) :: ((b % 16) * 16 + c / 4) :: ((c % 4) * 64 + d) :: decodeChunks rest
  | [a, b] => [a * 4 + b / 16]
  | [a, b, c] => [a * 4 + b / 16, (b % 16) * 16 + c / 4]
  | _ => []

/-- `Buffer.from(s, 'base64')` as a byte list: non-alphabet characters
are ignored, the rest is decoded in 4-character groups. -/
def decodeBase64 (s : String) : List Nat :=
  decodeChunks (s.data.filterMap b64Val)

/-! ### The data-URL pattern `/^data:([^;]+);base64,(.+)$/` -/

/-- Splits at the first `';'`: returns the characters before it and the
characters after it, or `none` when there is no semicolon. -/
def splitAtSemi : List Char → Option (List Char × List Char)
  | [] => none
  | c :: cs =>
    if c = ';' then some ([], cs)
    else
      match splitAtSemi cs with
      | none => none
      | some (m, r) => some (c :: m, r)

/-- JavaScript line terminators, which `.` in a regex does not match. -/
def isLineTerm (c : Char) : Bool :=
  c.toNat == 10 || c.toNat == 13 || c.toNat == 8232 || c.toNat == 8233

/-- Strips an expected literal prefix from a character list. -/
def dropLit : List Char → List Char → Option (List Char)
  | [], cs => some cs
  | _ :: _, [] => none
  | l :: ls, c :: cs => if c = l then dropLit ls cs else none

/-- The match of `/^data:([^;]+);base64,(.+)$/` on `s`: `some (mime, body)`
when `s = "data:" ++ mime ++ ";base64," ++ body` with `mime` non-empty and
semicolon-free and `body` non-empty and free of line terminators. -/
def parseDataUrl (s : String) : Option (String × String) :=
  match dropLit "data:".data s.data with
  | none => none
  | some rest =>
    match splitAtSemi rest with
    | none => none
    | some (mime, afterSemi) =>
      if mime.isEmpty then none
      else
        match dropLit "base64,".data afterSemi with
        | none => none
        | some body =>
          if body.isEmpty || body.any isLineTerm then none
          else some (String.mk mime, String.mk body)

/-! ### Data model -/

/-- The allow-list `SUPPORTED_FORMATS` from `page.ts`. -/
def SUPPORTED_FORMATS : List String :=
  [".ttf", ".otf", ".woff", ".woff2", ".ttc",
   ".eot", ".svg", ".dfont", ".fon", ".pfa", ".pfb"]

/-- Error taxonomy of the provider: unsupported upload extension,
malformed data URL, and storage/cache-layer I/O failures. -/
inductive Err where
  | unsupportedFormat : String → Err
  | invalidEncoding : Err
  | io : Nat → Err
deriving DecidableEq, Repr

/-- Result of `fs.stat`: size in bytes and the directory flag. -/
structure Stat where
  size : Nat
  isDirectory : Bool
deriving DecidableEq, Repr

/-- The `GlyphFont` interface of `page.ts`; paths are segment lists. -/
structure GlyphFont where
  name : String
  fileName : String
  format : String
  size : Nat
  path : List String
  dataUrl : Option String
deriving DecidableEq, Repr

/-- File-system contents outside the directory listing: an association
of absolute paths to byte lists; a write shadows earlier entries. -/
abbrev FS := List (List String × List Nat)

/-- Reads the bytes at a path (first, i.e. most recent, entry wins). -/
def fsRead : FS → List String → Option (List Nat)
  | [], _ => none
  | (q, b) :: rest, p => if q = p then some b else fsRead rest p

/-- `fs.writeFile`: (over)writes the bytes at a path. -/
def fsWrite (fs : FS) (p : List String) (bytes : List Nat) : FS :=
  (p, bytes) :: fs

/-- Modelled from the spec: the external FontCache state (the
`FontsService`, whose source is not part of this repository) maps a
font name to the data URL it currently holds. -/
abbrev Cache := List (String × String)

/-- Modelled from the spec: `getFontInfo(name)` returns the cached entry
for `name`, or absent. -/
def cacheGet : Cache → String → Option String
  | [], _ => none
  | (k, v) :: rest, n => if k = n then some v else cacheGet rest n

/-- Adds a cache entry, shadowing any earlier entry with the same key. -/
def cacheSet (c : Cache) (n v : String) : Cache :=
  (n, v) :: c

/-- JavaScript truthiness of an optional string: the empty string is
falsy, as in `fontInfo?.dataUrl || null`. -/
def truthyOpt : Option String → Option String
  | none => none
  | some s => if s = "" then none else some s

/-- Modelled from the spec: the outcome of a `loadSingleFont(path)` call
(the `FontsService` is external): it may throw (`Except.error`), succeed
and populate the cache entry keyed by the stem of the loaded file with a
data URL (`Except.ok (some url)`), or succeed with the cache still
holding nothing for that file (`Except.ok none`). -/
abbrev LoadFn := List String → Except Err (Option String)

/-! ### `listFonts` -/

/-- The loop body of `listFonts`: walks the directory entries, skipping
non-allow-listed extensions and directories; a `stat` failure throws,
which the surrounding `catch` turns into "return what was accumulated". -/
def listFontsLoop (root : List String) (stat : List String → Except Err Stat)
    (gfi : String → Option String) : List String → List GlyphFont → List GlyphFont
  | [], acc => acc
  | file :: rest, acc =>
    let ext := lowerStr (extname file)
    if !(SUPPORTED_FORMATS.contains ext) then listFontsLoop root stat gfi rest acc
    else
      let filePath := resolvePath root file
      match stat filePath with
      | Except.error _ => acc
      | Except.ok fileStats =>
        if fileStats.isDirectory then listFontsLoop root stat gfi rest acc
        else
          let fontName := basenameSuffix file ext
          listFontsLoop root stat gfi rest (acc ++
            [{ name := fontName, fileName := file,
               format := String.mk (ext.data.drop 1),
               size := fileStats.size, path := filePath,
               dataUrl := gfi fontName }])

/-- `listFonts` from `page.ts`: reads the directory and builds one
`GlyphFont` per allow-listed non-directory file; any failure is caught
and the fonts accumulated so far are returned. -/
def listFonts (root : List String) (readdir : Except Err (List String))
    (stat : List String → Except Err Stat) (gfi : String → Option String) :
    List GlyphFont :=
  match readdir with
  | Except.error _ => []
  | Except.ok files => listFontsLoop root stat gfi files []

/-! ### `deleteFont` -/

/-- The `matchingFiles` filter of `deleteFont`: entries whose
`basename(file, lowercasedExt)` equals the requested name and whose
lowercased extension is allow-listed. -/
def matchingFiles (files : List String) (fontName : String) : List String :=
  files.filter (fun file =>
    let ext := lowerStr (extname file)
    basenameSuffix file ext == fontName && SUPPORTED_FORMATS.contains ext)

/-- The deletion loop: unlinks each matching file in order; the first
failure aborts the loop.  Returns the outcome and the unlinked paths in
order. -/
def deleteLoop (root : List String) (unlink : List String → Option Err) :
    List String → List (List String) → Except Err Unit × List (List String)
  | [], deleted => (Except.ok (), deleted)
  | file :: rest, deleted =>
    let filePath := resolvePath root file
    match unlink filePath with
    | some e => (Except.error e, deleted)
    | none => deleteLoop root unlink rest (deleted ++ [filePath])

/-- `deleteFont` from `page.ts`: scans the directory, filters the
matching files, deletes them sequentially; any error (including the
directory read) is rethrown to the caller. -/
def deleteFont (root : List String) (fontName : String)
    (readdir : Except Err (List String)) (unlink : List String → Option Err) :
    Except Err Unit × List (List String) :=
  match readdir with
  | Except.error e => (Except.error e, [])
  | Except.ok files => deleteLoop root unlink (matchingFiles files fontName) []

/-! ### `uploadFont` -/

/-- `uploadFont` from `page.ts`: validates the extension, parses the
data URL, decodes the base64 body, writes it to `resolve(root, fileName)`
(`wfail` says whether that write throws), then loads the written file
into the cache; every failure, the cache load included, is rethrown.
Returns the outcome and the resulting file-system contents. -/
def uploadFont (root : List String) (fileName base64Data : String) (fs : FS)
    (wfail : List String → Option Err) (loadSingleFont : LoadFn) :
    Except Err Unit × FS :=
  let ext := lowerStr (extname fileName)
  if !(SUPPORTED_FORMATS.contains ext) then
    (Except.error (Err.unsupportedFormat ext), fs)
  else
    match parseDataUrl base64Data with
    | none => (Except.error Err.invalidEncoding, fs)
    | some md =>
      let buffer := decodeBase64 md.2
      let filePath := resolvePath root fileName
      match wfail filePath with
      | some e => (Except.error e, fs)
      | none =>
        let fs2 := fsWrite fs filePath buffer
        match loadSingleFont filePath with
        | Except.error e => (Except.error e, fs2)
        | Except.ok _ => (Except.ok (), fs2)

/-! ### `loadFontOnDemand` -/

/-- The scan loop of `loadFontOnDemand`: on the first matching entry it
loads the file and returns the cache's (possibly absent) data URL for
the requested name; a load failure is caught and yields `none`. -/
def lodLoop (root : List String) (fontName : String) (cache : Cache)
    (load : LoadFn) : List String → Option String × Cache
  | [] => (none, cache)
  | file :: rest =>
    let ext := lowerStr (extname file)
    if basenameSuffix file ext == fontName && SUPPORTED_FORMATS.contains ext then
      let filePath := resolvePath root file
      match load filePath with
      | Except.error _ => (none, cache)
      | Except.ok none => (truthyOpt (cacheGet cache fontName), cache)
      | Except.ok (some d) =>
        let c2 := cacheSet cache (stemOfPath filePath) d
        (truthyOpt (cacheGet c2 fontName), c2)
    else lodLoop root fontName cache load rest

/-- `loadFontOnDemand` from `page.ts`: returns the cached data URL on a
(truthy) cache hit, otherwise scans the directory for the first matching
file, loads it and re-queries the cache; every failure is caught and
yields `none`. -/
def loadFontOnDemand (root : List String) (fontName : String) (cache : Cache)
    (readdir : Except Err (List String)) (load : LoadFn) :
    Option String × Cache :=
  match truthyOpt (cacheGet cache fontName) with
  | some u => (some u, cache)
  | none =>
    match readdir with
    | Except.error _ => (none, cache)
    | Except.ok files => lodLoop root fontName cache load files

/-! ### Specification-side descriptions of the listing -/

/-- The spec's listing condition: a directory entry appears iff its
lowercased extension is allow-listed and it is not a directory. -/
def keepFile (root : List String) (st : List String → Stat) (file : String) : Bool :=
  SUPPORTED_FORMATS.contains (lowerStr (extname file)) &&
    !(st (resolvePath root file)).isDirectory

/-- The spec's description of one listing entry: format is the
lowercase extension without its leading dot, size is the stat size. -/
def listedEntry (root : List String) (st : List String → Stat)
    (gfi : String → Option String) (file : String) : GlyphFont :=
  let ext := lowerStr (extname file)
  let fontName := basenameSuffix file ext
  { name := fontName, fileName := file,
    format := String.mk (ext.data.drop 1),
    size := (st (resolvePath root file)).size, path := resolvePath root file,
    dataUrl := gfi fontName }

/-! ### Helper lemmas -/

theorem listFontsLoop_total_stat (root : List String) (st : List String → Stat)
    (gfi : String → Option String) :
    ∀ (files : List String) (acc : List GlyphFont),
      listFontsLoop root (fun p => Except.ok (st p)) gfi files acc =
        acc ++ (files.filter (keepFile root st)).map (listedEntry root st gfi) := by
  intro files
  induction files with
  | nil => intro acc; simp [listFontsLoop]
  | cons f rest ih =>
    intro acc
    by_cases hc : lowerStr (extname f) ∈ SUPPORTED_FORMATS
    · by_cases hd : (st (resolvePath root f)).isDirectory = true
      · have hk : keepFile root st f = false := by simp [keepFile, hc, hd]
        simp [listFontsLoop, hc, hd, List.filter_cons, hk, ih]
      · have hk : keepFile root st f = true := by simp [keepFile, hc, hd]
        simp [listFontsLoop, hc, hd, List.filter_cons, hk, listedEntry, ih]
    · have hk : keepFile root st f = false := by simp [keepFile, hc]
      simp [listFontsLoop, hc, List.filter_cons, hk, ih]

theorem deleteLoop_all_ok (root : List String) (unlink : List String → Option Err) :
    ∀ (ms : List String) (acc : List (List String)),
      (∀ f ∈ ms, unlink (resolvePath root f) = none) →
      deleteLoop root unlink ms acc = (Except.ok (), acc ++ ms.map (resolvePath root)) := by
  intro ms
  induction ms with
  | nil => intro acc _; simp [deleteLoop]
  | cons f rest ih =>
    intro acc h
    have hf : unlink (resolvePath root f) = none := h f (by simp)
    have hr : ∀ g ∈ rest, unlink (resolvePath root g) = none :=
      fun g hg => h g (by simp [hg])
    simp [deleteLoop, hf, ih _ hr]

theorem deleteLoop_abort (root : List String) (unlink : List String → Option Err)
    (f : String) (post : List String) (e : Err)
    (hf : unlink (resolvePath root f) = some e) :
    ∀ (pre : List String) (acc : List (List String)),
      (∀ g ∈ pre, unlink (resolvePath root g) = none) →
      deleteLoop root unlink (pre ++ f :: post) acc =
        (Except.error e, acc ++ pre.map (resolvePath root)) := by
  intro pre
  induction pre with
  | nil => intro acc _; simp [deleteLoop, hf]
  | cons g rest ih =>
    intro acc h
    have hg : unlink (resolvePath root g) = none := h g (by simp)
    have hr : ∀ x ∈ rest, unlink (resolvePath root x) = none :=
      fun x hx => h x (by simp [hx])
    simp [deleteLoop, hg, ih _ hr]

theorem fsRead_fsWrite_self (fs : FS) (p : List String) (b : List Nat) :
    fsRead (fsWrite fs p b) p = some b := by
  simp [fsRead, fsWrite]

theorem splitSlash_of_noSlash :
    ∀ cs : List Char, cs.all (fun c => !(c == '/')) = true → splitSlash cs = [cs] := by
  intro cs h
  induction cs with
  | nil => rfl
  | cons c rest ih =>
    rw [List.all_cons, Bool.and_eq_true] at h
    have hc : ¬(c = '/') := by simpa using h.1
    simp [splitSlash, ih h.2, hc]

theorem startsWithSlash_eq_false (f : String)
    (h : f.data.all (fun c => !(c == '/')) = true) : startsWithSlash f = false := by
  unfold startsWithSlash
  cases hd : f.data with
  | nil => rfl
  | cons c cs =>
    rw [hd, List.all_cons, Bool.and_eq_true] at h
    simpa using h.1

theorem resolvePath_plain (root : List String) (f : String)
    (hp : plainEntry f = true) : resolvePath root f = root ++ [f] := by
  rw [plainEntry, Bool.and_eq_true, Bool.and_eq_true, Bool.and_eq_true] at hp
  obtain ⟨⟨⟨h1, h2⟩, h3⟩, h4⟩ := hp
  have hsplit : splitSlash f.data = [f.data] := splitSlash_of_noSlash _ h1
  have hmk : String.mk f.data = f := rfl
  have hsw : startsWithSlash f = false := startsWithSlash_eq_false f h1
  have hne : (f == "") = false := by simpa using h2
  have hnd : (f == ".") = false := by simpa using h3
  have hndd : (f == "..") = false := by simpa using h4
  simp [resolvePath, hsplit, hmk, hsw, resolveStep, hne, hnd, hndd]

theorem getLastD_append_singleton {α : Type} :
    ∀ (xs : List α) (x d : α), (xs ++ [x]).getLastD d = x := by
  intro xs
  induction xs with
  | nil => intro x d; rfl
  | cons y ys ih =>
    intro x d
    rw [List.cons_append]
    cases hys : ys ++ [x] with
    | nil => exact absurd hys (by simp)
    | cons z zs => simp [List.getLastD, ← hys, ih]

theorem stemOfPath_append (root : List String) (f : String) :
    stemOfPath (root ++ [f]) = stem f := by
  simp [stemOfPath, getLastD_append_singleton]

theorem lodLoop_none (root : List String) (fontName : String) (cache : Cache)
    (load : LoadFn) (hc : cacheGet cache fontName = none) :
    ∀ files : List String,
      (∀ f ∈ files, plainEntry f = true ∧
        ¬(stem f = fontName ∧
          SUPPORTED_FORMATS.contains (lowerStr (extname f)) = true)) →
      (lodLoop root fontName cache load files).1 = none := by
  intro files
  induction files with
  | nil => intro _; simp [lodLoop]
  | cons f rest ih =>
    intro h
    obtain ⟨hpf, hnm⟩ := h f (by simp)
    have hrest : ∀ g ∈ rest, plainEntry g = true ∧
        ¬(stem g = fontName ∧
          SUPPORTED_FORMATS.contains (lowerStr (extname g)) = true) :=
      fun g hg => h g (List.mem_cons_of_mem _ hg)
    by_cases hb : basenameSuffix f (lowerStr (extname f)) = fontName ∧
        lowerStr (extname f) ∈ SUPPORTED_FORMATS
    · have hb1 := hb.1
      have hmem := hb.2
      have hstem : ¬(stem f = fontName) :=
        fun hEq => hnm ⟨hEq, by simpa using hmem⟩
      cases hl : load (resolvePath root f) with
      | error e => simp [lodLoop, hb1, hmem, hl]
      | ok v =>
        cases v with
        | none => simp [lodLoop, hb1, hmem, hl, hc, truthyOpt]
        | some d =>
          have hso : stemOfPath (resolvePath root f) = stem f := by
            rw [resolvePath_plain root f hpf, stemOfPath_append]
          simp [lodLoop, hb1, hmem, hl, cacheSet, cacheGet, hso, hstem, hc,
            truthyOpt]
    · simp only [lodLoop]
      rw [if_neg (fun hcond => hb (by simpa using hcond))]
      exact ih hrest

/-! ### Claims -/

/-- C1, counterexample: on the concrete upload of `a.ttf` with a valid
payload, the write succeeds (the decoded bytes are on disk at the
resolved path) and yet `uploadFont`'s caller-visible result is the cache
load's error, not success — the cache-load failure is not swallowed. -/
theorem uploadFont_write_succeeded_yet_failed :
    fsRead (uploadFont ["fonts"] "a.ttf" "data:font/ttf;base64,QUJD" []
        (fun _ => none) (fun _ => Except.error (Err.io 7))).2
      (resolvePath ["fonts"] "a.ttf") = some (decodeBase64 "QUJD") ∧
    (uploadFont ["fonts"] "a.ttf" "data:font/ttf;base64,QUJD" []
        (fun _ => none) (fun _ => Except.error (Err.io 7))).1 =
      Except.error (Err.io 7) :=
  ⟨rfl, rfl⟩

/-- C1, amended: when the extension is allow-listed, the payload parses,
and the write succeeds, a failure of the FontCache load step makes
`uploadFont` fail — the load error propagates to the caller, while the
written file stays in place. -/
theorem uploadFont_propagates_cache_load_error (root : List String)
    (fileName base64Data : String) (fs : FS) (wfail : List String → Option Err)
    (load : LoadFn) (m body : String) (e : Err)
    (hext : SUPPORTED_FORMATS.contains (lowerStr (extname fileName)) = true)
    (hp : parseDataUrl base64Data = some (m, body))
    (hw : wfail (resolvePath root fileName) = none)
    (hl : load (resolvePath root fileName) = Except.error e) :
    uploadFont root fileName base64Data fs wfail load =
      (Except.error e, fsWrite fs (resolvePath root fileName) (decodeBase64 body)) := by
  have hmem : lowerStr (extname fileName) ∈ SUPPORTED_FORMATS := by simpa using hext
  simp [uploadFont, hmem, hp, hw, hl]

/-- Witness for C1's amended theorem at a concrete input. -/
theorem uploadFont_propagates_cache_load_error_witness :
    uploadFont ["fonts"] "a.ttf" "data:font/ttf;base64,QUJD" []
        (fun _ => none) (fun _ => Except.error (Err.io 7)) =
      (Except.error (Err.io 7), [(["fonts", "a.ttf"], [65, 66, 67])]) :=
  uploadFont_propagates_cache_load_error ["fonts"] "a.ttf"
    "data:font/ttf;base64,QUJD" [] (fun _ => none)
    (fun _ => Except.error (Err.io 7)) "font/ttf" "QUJD" (Err.io 7)
    (by decide) rfl rfl rfl

/-- C2: on the concrete directory entry `A.TTF` (allow-listed extension
in upper case), the listed `name` is the whole file name `A.TTF` — the
lowercased suffix does not match, so the extension is not stripped —
whereas the stem of `A.TTF` is `A`. -/
theorem listFonts_uppercase_extension_name_bug :
    (listFonts ["fonts"] (Except.ok ["A.TTF"])
        (fun _ => Except.ok { size := 10, isDirectory := false })
        (fun _ => none)).map GlyphFont.name = ["A.TTF"] ∧
    stem "A.TTF" = "A" :=
  ⟨by decide, by decide⟩

/-- C3: there is a file name with an allow-listed extension —
`../evil.ttf` — for which `uploadFont` succeeds and writes the decoded
bytes at the resolved target, and that target lies outside the storage
directory: the root's segments are not a prefix of the written path. -/
theorem uploadFont_escapes_storage_root :
    ∃ fileName : String,
      SUPPORTED_FORMATS.contains (lowerStr (extname fileName)) = true ∧
      (uploadFont ["data", "fonts"] fileName "data:font/ttf;base64,QUJD" []
          (fun _ => none) (fun _ => Except.ok none)).1 = Except.ok () ∧
      fsRead (uploadFont ["data", "fonts"] fileName "data:font/ttf;base64,QUJD"
          [] (fun _ => none) (fun _ => Except.ok none)).2
        (resolvePath ["data", "fonts"] fileName) = some (decodeBase64 "QUJD") ∧
      List.isPrefixOf ["data", "fonts"]
        (resolvePath ["data", "fonts"] fileName) = false :=
  ⟨"../evil.ttf", by decide, rfl, rfl, by decide⟩

/-- C4: when the directory read succeeds and every `stat` succeeds,
`listFonts` returns exactly one entry per non-directory file whose
lowercased extension is allow-listed, with `format` the lowercase
extension without its dot and `size` the stat size; directories and
files with other extensions never appear. -/
theorem listFonts_exactly_allowlisted_files (root : List String)
    (files : List String) (st : List String → Stat)
    (gfi : String → Option String) :
    listFonts root (Except.ok files) (fun p => Except.ok (st p)) gfi =
      (files.filter (keepFile root st)).map (listedEntry root st gfi) := by
  simpa [listFonts] using listFontsLoop_total_stat root st gfi files []

/-- C5, counterexample: `arial.TTF` has stem `arial` and an allow-listed
extension, yet `deleteFont "arial"` deletes nothing from a directory
holding exactly that file, because the lowercased suffix fails to match
case-sensitively. -/
theorem deleteFont_stem_match_fails_uppercase :
    stem "arial.TTF" = "arial" ∧
    SUPPORTED_FORMATS.contains (lowerStr (extname "arial.TTF")) = true ∧
    deleteFont ["fonts"] "arial" (Except.ok ["arial.TTF"]) (fun _ => none) =
      (Except.ok (), []) :=
  ⟨by decide, by decide, rfl⟩

/-- C5, amended: when every individual deletion succeeds,
`deleteFont name` removes exactly the files whose name with the
lowercased extension stripped (case-sensitively) equals `name` and whose
lowercased extension is allow-listed — the stem for lowercase-extension
files, the full file name otherwise — and touches nothing else. -/
theorem deleteFont_removes_exactly_code_matches (root : List String)
    (fontName : String) (files : List String)
    (unlink : List String → Option Err)
    (h : ∀ f ∈ matchingFiles files fontName, unlink (resolvePath root f) = none) :
    deleteFont root fontName (Except.ok files) unlink =
      (Except.ok (), (matchingFiles files fontName).map (resolvePath root)) := by
  simpa [deleteFont] using
    deleteLoop_all_ok root unlink (matchingFiles files fontName) [] h

/-- Witness for C5's amended theorem: both `arial.ttf` and `arial.woff`
are removed, `b.ttf` is untouched. -/
theorem deleteFont_removes_exactly_code_matches_witness :
    deleteFont ["fonts"] "arial"
        (Except.ok ["arial.ttf", "arial.woff", "b.ttf"]) (fun _ => none) =
      (Except.ok (), [["fonts", "arial.ttf"], ["fonts", "arial.woff"]]) :=
  deleteFont_removes_exactly_code_matches ["fonts"] "arial"
    ["arial.ttf", "arial.woff", "b.ttf"] (fun _ => none) (fun _ _ => rfl)

/-- C6: with an allow-listed extension and a payload that does not match
`data:<mime>;base64,<data>`, `uploadFont` fails with the invalid-encoding
error and the file system is left unchanged. -/
theorem uploadFont_invalid_encoding_rejected (root : List String)
    (fileName base64Data : String) (fs : FS)
    (wfail : List String → Option Err) (load : LoadFn)
    (hext : SUPPORTED_FORMATS.contains (lowerStr (extname fileName)) = true)
    (hp : parseDataUrl base64Data = none) :
    uploadFont root fileName base64Data fs wfail load =
      (Except.error Err.invalidEncoding, fs) := by
  have hmem : lowerStr (extname fileName) ∈ SUPPORTED_FORMATS := by simpa using hext
  simp [uploadFont, hmem, hp]

/-- Witness for C6 at a concrete input. -/
theorem uploadFont_invalid_encoding_rejected_witness :
    uploadFont ["fonts"] "a.ttf" "hello" [(["fonts", "old.ttf"], [1])]
        (fun _ => none) (fun _ => Except.ok none) =
      (Except.error Err.invalidEncoding, [(["fonts", "old.ttf"], [1])]) :=
  uploadFont_invalid_encoding_rejected ["fonts"] "a.ttf" "hello"
    [(["fonts", "old.ttf"], [1])] (fun _ => none) (fun _ => Except.ok none)
    (by decide) rfl

/-- C7: if the matching files decompose as `pre ++ f :: post`, the
deletions of `pre` succeed and the deletion of `f` fails, then
`deleteFont` surfaces that error and the deleted files are exactly
`pre` — nothing after `f` in enumeration order is deleted. -/
theorem deleteFont_aborts_and_propagates (root : List String)
    (fontName : String) (files : List String)
    (unlink : List String → Option Err) (pre : List String) (f : String)
    (post : List String) (e : Err)
    (hm : matchingFiles files fontName = pre ++ f :: post)
    (hpre : ∀ g ∈ pre, unlink (resolvePath root g) = none)
    (hf : unlink (resolvePath root f) = some e) :
    deleteFont root fontName (Except.ok files) unlink =
      (Except.error e, pre.map (resolvePath root)) := by
  have := deleteLoop_abort root unlink f post e hf pre [] hpre
  simpa [deleteFont, hm] using this

/-- Witness for C7: deleting `x` over `x.ttf`, `x.woff`, `x.otf` where
unlinking `x.woff` fails removes only `x.ttf` and reports the error. -/
theorem deleteFont_aborts_and_propagates_witness :
    deleteFont ["fonts"] "x" (Except.ok ["x.ttf", "x.woff", "x.otf"])
        (fun p => if p = ["fonts", "x.woff"] then some (Err.io 3) else none) =
      (Except.error (Err.io 3), [["fonts", "x.ttf"]]) :=
  deleteFont_aborts_and_propagates ["fonts"] "x" ["x.ttf", "x.woff", "x.otf"]
    (fun p => if p = ["fonts", "x.woff"] then some (Err.io 3) else none)
    ["x.ttf"] "x.woff" ["x.otf"] (Err.io 3) (by decide) (by decide) (by decide)

/-- C8: when the directory read fails, `listFonts` returns the empty
list (the error is not propagated — the function is total and yields a
value for every oracle outcome). -/
theorem listFonts_empty_on_readdir_error (root : List String) (e : Err)
    (stat : List String → Except Err Stat) (gfi : String → Option String) :
    listFonts root (Except.error e) stat gfi = [] :=
  rfl

/-- C9: whenever `uploadFont` succeeds on a payload whose body is
`body`, the bytes stored at `resolve(root, fileName)` in the resulting
file system are exactly the base64 decoding of `body`, for every prior
file-system state (so an existing file of that name is replaced). -/
theorem uploadFont_roundtrip (root : List String) (fileName base64Data : String)
    (fs : FS) (wfail : List String → Option Err) (load : LoadFn)
    (m body : String)
    (hp : parseDataUrl base64Data = some (m, body))
    (hok : (uploadFont root fileName base64Data fs wfail load).1 = Except.ok ()) :
    fsRead (uploadFont root fileName base64Data fs wfail load).2
      (resolvePath root fileName) = some (decodeBase64 body) := by
  by_cases hmem : lowerStr (extname fileName) ∈ SUPPORTED_FORMATS
  · cases hw : wfail (resolvePath root fileName) with
    | some e => simp [uploadFont, hmem, hp, hw] at hok
    | none =>
      cases hl : load (resolvePath root fileName) with
      | error e => simp [uploadFont, hmem, hp, hw, hl] at hok
      | ok v => simp [uploadFont, hmem, hp, hw, hl, fsWrite, fsRead]
  · simp [uploadFont, hmem, hp] at hok

/-- Witness for C9: uploading over an existing `a.ttf` replaces its
bytes with the decoded payload `ABC`. -/
theorem uploadFont_roundtrip_witness :
    fsRead (uploadFont ["fonts"] "a.ttf" "data:font/ttf;base64,QUJD"
        [(["fonts", "a.ttf"], [9, 9])] (fun _ => none)
        (fun _ => Except.ok none)).2
      (resolvePath ["fonts"] "a.ttf") = some [65, 66, 67] :=
  uploadFont_roundtrip ["fonts"] "a.ttf" "data:font/ttf;base64,QUJD"
    [(["fonts", "a.ttf"], [9, 9])] (fun _ => none) (fun _ => Except.ok none)
    "font/ttf" "QUJD" rfl rfl

/-- C10: when the cache holds no entry for `name` and no well-formed
directory entry has stem `name` together with an allow-listed extension,
`loadFontOnDemand` returns `none` — and being a total function it raises
nothing.  The cache effect of `loadSingleFont` is modelled from the
spec: a successful load populates the entry keyed by the loaded file's
stem. -/
theorem loadFontOnDemand_absent_without_error (root : List String)
    (fontName : String) (cache : Cache) (readdir : Except Err (List String))
    (load : LoadFn)
    (hc : cacheGet cache fontName = none)
    (hf : ∀ files, readdir = Except.ok files → ∀ f ∈ files,
      plainEntry f = true ∧
        ¬(stem f = fontName ∧
          SUPPORTED_FORMATS.contains (lowerStr (extname f)) = true)) :
    (loadFontOnDemand root fontName cache readdir load).1 = none := by
  unfold loadFontOnDemand
  rw [hc]
  cases readdir with
  | error e => simp [truthyOpt]
  | ok files =>
    simpa [truthyOpt] using lodLoop_none root fontName cache load hc files (hf files rfl)

/-- Witness for C10: requesting `a.TTF` over a directory holding
`a.TTF` (whose stem is `a`, not `a.TTF`) with an empty cache yields
`none`, even though the file is loaded into the cache under its stem. -/
theorem loadFontOnDemand_absent_without_error_witness :
    (loadFontOnDemand ["fonts"] "a.TTF" [] (Except.ok ["a.TTF"])
        (fun _ => Except.ok (some "data:font/ttf;base64,QUJD"))).1 = none :=
  loadFontOnDemand_absent_without_error ["fonts"] "a.TTF" []
    (Except.ok ["a.TTF"]) (fun _ => Except.ok (some "data:font/ttf;base64,QUJD"))
    rfl
    (by
      intro files hEq f hfm
      injection hEq with hEq2
      subst hEq2
      simp only [List.mem_singleton] at hfm
      subst hfm
      exact ⟨by decide, by decide⟩)

end Glyph
